import Mathlib

/-!
Verification of `cartesia-infill-repro`.

Shallow embedding of the TypeScript sources:
- `src/lib/retext.ts` (`mergeSpacesWithFollowingWords`)
- `scripts/test-infill.ts` (`sanitizeFolderName`, `evaluateInfill`,
  `extractWordsToFolder`, `main`)

Conventions of the embedding:
- JS strings are Lean `String` (lists of characters); the JS whitespace
  class `\s` is modelled by `isWs` (space, tab, LF, CR, FF, VT).
- JS numbers carrying timestamps and durations are modelled as `ℚ`.
- `Array.prototype.slice(a, b)` for non-negative bounds is `jsSlice`.
- Side effects (ffmpeg extraction, Cartesia API calls, file writes) are
  modelled as explicit effect traces (`Effect`), and a thrown exception as
  an `Option String` / error component.
- The in-place write `words[i + 1] = …` inside
  `mergeSpacesWithFollowingWords` is modelled by explicit state passing:
  `mergeLoop` carries the current contents of the `words` array and
  returns both its final contents and the `result` list.
-/

/-- The JS whitespace class `\s` restricted to its ASCII members:
space, tab, line feed, carriage return, form feed, vertical tab. -/
def isWs (c : Char) : Bool :=
  c.toNat == 32 || c.toNat == 9 || c.toNat == 10 || c.toNat == 13 ||
    c.toNat == 12 || c.toNat == 11

/-- JS `String.prototype.trim()` on a list of characters: drop leading and
trailing whitespace. -/
def jsTrim (cs : List Char) : List Char :=
  ((cs.dropWhile isWs).reverse.dropWhile isWs).reverse

/-- JS `String.prototype.toLowerCase()` on one character, restricted to
ASCII: `A`–`Z` (codes 65–90) map to `a`–`z` (codes 97–122). -/
def jsToLower (c : Char) : Char :=
  if 65 ≤ c.toNat ∧ c.toNat ≤ 90 then Char.ofNat (c.toNat + 32) else c

/-- The character class kept by `.replace(/[^a-z0-9\s-]/g, '')`:
lowercase ASCII letters, digits, whitespace, and the hyphen. -/
def isKept (c : Char) : Bool :=
  (97 ≤ c.toNat && c.toNat ≤ 122) || (48 ≤ c.toNat && c.toNat ≤ 57) ||
    isWs c || c.toNat == 45

/-- JS `.replace(/\s+/g, '-')`: every maximal run of whitespace characters
is replaced by a single hyphen.  The boolean flag records whether the
previously scanned character was whitespace (i.e. whether we are inside a
run that has already produced its hyphen). -/
def collapseWs : List Char → Bool → List Char
  | [], _ => []
  | c :: rest, prevWs =>
    if isWs c then
      if prevWs then collapseWs rest true else '-' :: collapseWs rest true
    else c :: collapseWs rest false

/-- `sanitizeFolderName` from `scripts/test-infill.ts` (lines 127–134):
`text.trim().toLowerCase().replace(/[^a-z0-9\s-]/g, '').replace(/\s+/g, '-').slice(0, 50)`. -/
def sanitizeFolderName (text : String) : String :=
  String.mk ((collapseWs (((jsTrim text.data).map jsToLower).filter isKept) false).take 50)

/-- The `attrs` record of a `Word` from `src/lib/editor-types.ts`. -/
structure WordAttrs where
  value : String
  startInSeconds : ℚ
  duration : ℚ
  videoSource : String
  audioSource : String
  audioStartInSeconds : ℚ
deriving DecidableEq

/-- A transcription word from `src/lib/editor-types.ts`; the literal type
tag `'word'` is carried as a string field. -/
structure Word where
  type : String
  attrs : WordAttrs
deriving DecidableEq

/-- `word.attrs.value.trim() === ''`: the word's text is whitespace-only. -/
def isSpaceOnly (s : String) : Bool := jsTrim s.data == []

/-- The merged word built at `retext.ts` lines 17–26: spread of `nextWord`
with `value` prefixed by the space word's value, `startInSeconds` and
`audioStartInSeconds` taken from the space word, and durations added. -/
def mergedWord (w next : Word) : Word :=
  { next with
    attrs := { next.attrs with
      value := w.attrs.value ++ next.attrs.value
      startInSeconds := w.attrs.startInSeconds
      duration := next.attrs.duration + w.attrs.duration
      audioStartInSeconds := w.attrs.audioStartInSeconds } }

/-- The loop of `mergeSpacesWithFollowingWords` (`retext.ts` lines 9–29),
with the mutable `words` array passed explicitly.  Returns the final
contents of the `words` array together with the `result` list.  The first
argument counts the remaining loop iterations (`ws.length - i`; the array
length never changes, so the loop body runs exactly that many more times);
it only makes the recursion structural, and the `0` case is unreachable
from `mergeSpacesWithFollowingWords` while `i < ws.length` holds. -/
def mergeLoop : Nat → List Word → Nat → List Word → List Word × List Word
  | 0, ws, _, result => (ws, result)
  | Nat.succ fuel, ws, i, result =>
    if h : i < ws.length then
      let word := ws.get ⟨i, h⟩
      if isSpaceOnly word.attrs.value then
        if h2 : i + 1 < ws.length then
          mergeLoop fuel (ws.set (i + 1) (mergedWord word (ws.get ⟨i + 1, h2⟩)))
            (i + 1) result
        else
          mergeLoop fuel ws (i + 1) result
      else
        mergeLoop fuel ws (i + 1) (result ++ [word])
    else
      (ws, result)

/-- `mergeSpacesWithFollowingWords` from `src/lib/retext.ts`: the value the
function returns. -/
def mergeSpacesWithFollowingWords (words : List Word) : List Word :=
  (mergeLoop words.length words 0 []).2

/-- The contents of the caller's `words` array after
`mergeSpacesWithFollowingWords` returns (the function mutates
`words[i + 1]` in place when merging). -/
def mergeFinalArray (words : List Word) : List Word :=
  (mergeLoop words.length words 0 []).1

/-- Recursive restatement of the merge loop, used to reason about the
returned list; `mergeLoop_snd_eq` proves it equal to the loop. -/
def mergeRec : List Word → List Word
  | [] => []
  | w :: rest =>
    if isSpaceOnly w.attrs.value then
      match rest with
      | [] => []
      | next :: rest2 => mergeRec (mergedWord w next :: rest2)
    else
      w :: mergeRec rest
termination_by l => l.length
decreasing_by
  all_goals (simp only [List.length_cons]; omega)

/-- `Array.prototype.slice(a, b)` for `0 ≤ a`, `0 ≤ b`. -/
def jsSlice (xs : List Word) (a b : Nat) : List Word :=
  (xs.take b).drop a

/-- Sum of the `duration` fields of a word sequence. -/
def sumDur (ws : List Word) : ℚ :=
  (ws.map (fun w => w.attrs.duration)).sum

/-- Total duration of the maximal trailing run of whitespace-only words. -/
def trailingDur (ws : List Word) : ℚ :=
  sumDur (ws.reverse.takeWhile (fun w => isSpaceOnly w.attrs.value))

/-- The observable side effects of `scripts/test-infill.ts`: ffmpeg
segment extraction, directory creation, reading the source audio, file
writes, the Cartesia voice-clone call, the Cartesia infill call (with its
transcript), and the ffmpeg concat producing the final artifact. -/
inductive Effect where
  | extractSegment : Effect
  | mkdirOut : Effect
  | readAudio : Effect
  | writeFile : String → Effect
  | cloneVoice : Effect
  | infillCall : String → Effect
  | joinFiles : String → Effect
deriving DecidableEq

/-- The three boundary slices computed in `evaluateInfill`
(`test-infill.ts` lines 153–155): `words.slice(startIndex, startIndex + l)`,
`words.slice(startIndex + l, startIndex + l + m)`,
`words.slice(startIndex + l + m, startIndex + l + m + r)`. -/
def computeBoundaries (words : List Word) (startIndex l m r : Nat) :
    List Word × List Word × List Word :=
  (jsSlice words startIndex (startIndex + l),
   jsSlice words (startIndex + l) (startIndex + l + m),
   jsSlice words (startIndex + l + m) (startIndex + l + m + r))

/-- `middleWords.map((w) => w.attrs.value).join('')`
(`test-infill.ts` line 157). -/
def middleTextOf (words : List Word) (startIndex l m : Nat) : String :=
  String.join ((jsSlice words (startIndex + l) (startIndex + l + m)).map
    (fun w => w.attrs.value))

/-- `'_' + sanitizeFolderName({ text: middleText })`
(`test-infill.ts` line 163): the artifact-name prefix of a trial. -/
def prefixNameOf (words : List Word) (startIndex l m : Nat) : String :=
  "_" ++ sanitizeFolderName (middleTextOf words startIndex l m)

/-- Basename of the final artifact of a trial: the prefix followed by
`-final.wav` (`test-infill.ts` line 166). -/
def finalNameOf (words : List Word) (startIndex l m : Nat) : String :=
  prefixNameOf words startIndex l m ++ "-final.wav"

/-- `evaluateInfill` (`test-infill.ts` lines 136–257) as an effect trace.
`existing` is the set of file basenames already present in the output
directory.  Returns the effects performed and `some err` when the run
throws (the only throwing sites reachable in this model are the
`leftWords[0]`/`rightWords[0]` accesses on an empty slice, a JS
`TypeError`; the external calls themselves are assumed to succeed). -/
def evaluateInfillRun (words : List Word) (startIndex l m r : Nat)
    (existing : List String) : List Effect × Option String :=
  let leftWords := jsSlice words startIndex (startIndex + l)
  let rightWords := jsSlice words (startIndex + l + m) (startIndex + l + m + r)
  if finalNameOf words startIndex l m ∈ existing then
    ([], none)
  else if leftWords.isEmpty then
    ([Effect.mkdirOut], some "TypeError")
  else if rightWords.isEmpty then
    ([Effect.mkdirOut], some "TypeError")
  else
    ([Effect.mkdirOut, Effect.readAudio,
      Effect.extractSegment, Effect.extractSegment,
      Effect.writeFile (prefixNameOf words startIndex l m ++ "-left.wav"),
      Effect.writeFile (prefixNameOf words startIndex l m ++ "-right.wav"),
      Effect.infillCall (middleTextOf words startIndex l m),
      Effect.writeFile (prefixNameOf words startIndex l m ++ "-generated.wav"),
      Effect.joinFiles (finalNameOf words startIndex l m)], none)

/-- `extractWordsToFolder` (`test-infill.ts` lines 259–291) as an effect
trace: when the words folder does not yet exist, it is created and every
word is extracted with ffmpeg and written to `<i>.mp3`. -/
def extractWordsToFolderTrace (words : List Word) (wordsDirExists : Bool) :
    List Effect :=
  if wordsDirExists then []
  else
    Effect.mkdirOut ::
      ((List.range words.length).map (fun i =>
        [Effect.extractSegment, Effect.writeFile (toString i ++ ".mp3")])).flatten

/-- The basenames written by a trace (`fs.writeFileSync` targets and the
ffmpeg concat output). -/
def writtenNames (t : List Effect) : List String :=
  t.filterMap (fun e =>
    match e with
    | Effect.writeFile n => some n
    | Effect.joinFiles n => some n
    | _ => none)

/-- The evaluation loop of `main` (`test-infill.ts` lines 344–357): up to
`k` more iterations starting at trial number `i`; each trial uses
`startIndex = i * step` and the loop breaks when
`startIndex + totalNeeded > words.length`.  A thrown error stops the loop
(it propagates to `main().catch`).  Files written by one trial are part of
`existing` for the following trials. -/
def runTrials (words : List Word) (step tn : Nat) :
    List String → Nat → Nat → List Effect × Option String
  | _, _, 0 => ([], none)
  | existing, i, Nat.succ k =>
    if i * step + tn > words.length then ([], none)
    else
      let r := evaluateInfillRun words (i * step) 6 3 6 existing
      match r.2 with
      | some e => (r.1, some e)
      | none =>
        let rest := runTrials words step tn
          (existing ++ writtenNames r.1) (i + 1) k
        (r.1 ++ rest.1, rest.2)

/-- The startIndex values of the trials the loop executes, following the
same control flow as `runTrials` (trial `i` uses `i * step`; an
out-of-range startIndex breaks the loop). -/
def trialIndexes (len step tn : Nat) : Nat → Nat → List Nat
  | _, 0 => []
  | i, Nat.succ k =>
    if i * step + tn > len then []
    else i * step :: trialIndexes len step tn (i + 1) k

/-- `main` (`test-infill.ts` lines 293–360) as an effect trace, from the
point where the merged word list is available: the word-extraction pass,
the insufficient-words check, the voice-clone sample extraction and clone
call, and the ten-trial evaluation loop with
`leftWordCount = 6, middleWordCount = 3, rightWordCount = 6` and
`step = ⌊(words.length − 15) / 10⌋`. -/
def mainRun (words : List Word) (wordsDirExists : Bool)
    (existing : List String) : List Effect × Option String :=
  let t1 := extractWordsToFolderTrace words wordsDirExists
  if words.length < 15 then
    (t1, some ("Not enough words. Need 15, got " ++ toString words.length))
  else
    let step := (words.length - 15) / 10
    let tr := runTrials words step 15 existing 0 10
    (t1 ++ [Effect.extractSegment, Effect.cloneVoice] ++ tr.1, tr.2)

/-! ### Basic lemmas about the embedding -/

theorem jsTrim_eq_nil_iff (l : List Char) : jsTrim l = [] ↔ ∀ c ∈ l, isWs c := by
  unfold jsTrim
  constructor
  · intro h
    have h1 : ((l.dropWhile isWs).reverse.dropWhile isWs) = [] := by
      simpa using congrArg List.reverse h
    have h2 : ∀ c ∈ (l.dropWhile isWs).reverse, isWs c :=
      List.dropWhile_eq_nil_iff.mp h1
    intro c hc
    have hsplit := List.takeWhile_append_dropWhile (p := isWs) (l := l)
    rw [← hsplit] at hc
    rcases List.mem_append.mp hc with h3 | h3
    · exact List.mem_takeWhile_imp h3
    · exact h2 c (List.mem_reverse.mpr h3)
  · intro h
    have : l.dropWhile isWs = [] := List.dropWhile_eq_nil_iff.mpr h
    simp [this]

theorem isSpaceOnly_eq_all (s : String) : isSpaceOnly s = s.data.all isWs := by
  rw [Bool.eq_iff_iff]
  simp only [isSpaceOnly, beq_iff_eq, List.all_eq_true, jsTrim_eq_nil_iff]

theorem isSpaceOnly_append (a b : String) :
    isSpaceOnly (a ++ b) = (isSpaceOnly a && isSpaceOnly b) := by
  simp [isSpaceOnly_eq_all, List.all_append]

theorem sumDur_nil : sumDur [] = 0 := rfl

theorem sumDur_cons (w : Word) (l : List Word) :
    sumDur (w :: l) = w.attrs.duration + sumDur l := by
  simp [sumDur]

theorem sumDur_append (a b : List Word) :
    sumDur (a ++ b) = sumDur a + sumDur b := by
  simp [sumDur]

theorem drop_set_eq_cons {α : Type} (l : List α) (n : Nat) (a : α)
    (h : n < l.length) : (l.set n a).drop n = a :: l.drop (n + 1) := by
  induction n generalizing l with
  | zero =>
    cases l with
    | nil => simp at h
    | cons b t => simp
  | succ n ih =>
    cases l with
    | nil => simp at h
    | cons b t =>
      simp only [List.set_cons_succ, List.drop_succ_cons]
      exact ih t (by simpa using h)

theorem mergeRec_cons_not_space (w : Word) (rest : List Word)
    (h : isSpaceOnly w.attrs.value = false) :
    mergeRec (w :: rest) = w :: mergeRec rest := by
  cases rest <;> simp [mergeRec, h]

theorem mergeRec_space_nil (w : Word) (h : isSpaceOnly w.attrs.value = true) :
    mergeRec [w] = [] := by
  simp [mergeRec, h]

theorem mergeRec_space_cons (w next : Word) (rest2 : List Word)
    (h : isSpaceOnly w.attrs.value = true) :
    mergeRec (w :: next :: rest2) = mergeRec (mergedWord w next :: rest2) := by
  simp [mergeRec, h]

/-- The value returned by the merge loop is the one computed by the
recursive restatement `mergeRec` of the remaining suffix, provided the
iteration budget covers the remaining indices. -/
theorem mergeLoop_snd_eq (fuel : Nat) : ∀ (ws : List Word) (i : Nat)
    (res : List Word), ws.length ≤ i + fuel →
    (mergeLoop fuel ws i res).2 = res ++ mergeRec (ws.drop i) := by
  induction fuel with
  | zero =>
    intro ws i res hle
    rw [mergeLoop, List.drop_eq_nil_of_le (by omega)]
    simp [mergeRec]
  | succ fuel ih =>
    intro ws i res hle
    rw [mergeLoop]
    by_cases hlen : i < ws.length
    · simp only [dif_pos hlen]
      by_cases hsp : isSpaceOnly (ws.get ⟨i, hlen⟩).attrs.value = true
      · simp only [if_pos hsp]
        by_cases h2 : i + 1 < ws.length
        · simp only [dif_pos h2]
          rw [ih _ _ _ (by simp only [List.length_set]; omega),
            drop_set_eq_cons _ _ _ h2,
            List.drop_eq_getElem_cons hlen, List.drop_eq_getElem_cons h2,
            mergeRec_space_cons _ _ _
              (show isSpaceOnly ws[i].attrs.value = true from hsp)]
          rfl
        · simp only [dif_neg h2]
          have hnil : ws.drop (i + 1) = [] := List.drop_eq_nil_of_le (by omega)
          rw [ih _ _ _ (by omega), hnil, List.drop_eq_getElem_cons hlen, hnil,
            mergeRec_space_nil _
              (show isSpaceOnly ws[i].attrs.value = true from hsp)]
          simp [mergeRec]
      · simp only [if_neg hsp]
        have hsp' : isSpaceOnly ws[i].attrs.value = false := by
          simpa using hsp
        rw [ih _ _ _ (by omega), List.drop_eq_getElem_cons hlen,
          mergeRec_cons_not_space _ _ hsp']
        simp
    · simp only [dif_neg hlen]
      rw [List.drop_eq_nil_of_le (by omega)]
      simp [mergeRec]

theorem mergeSpaces_eq_mergeRec (words : List Word) :
    mergeSpacesWithFollowingWords words = mergeRec words := by
  unfold mergeSpacesWithFollowingWords
  rw [mergeLoop_snd_eq _ _ _ _ (by omega)]
  simp

/-- When no word of the array is whitespace-only, the loop never writes to
the array: its final contents equal its initial contents. -/
theorem mergeLoop_fst_no_space (fuel : Nat) : ∀ (ws : List Word) (i : Nat)
    (res : List Word), (∀ w ∈ ws, isSpaceOnly w.attrs.value = false) →
    (mergeLoop fuel ws i res).1 = ws := by
  induction fuel with
  | zero => intro ws i res _; rw [mergeLoop]
  | succ fuel ih =>
    intro ws i res h
    rw [mergeLoop]
    by_cases hlen : i < ws.length
    · simp only [dif_pos hlen]
      have hmem : ws.get ⟨i, hlen⟩ ∈ ws := List.get_mem ws i hlen
      rw [if_neg (by rw [h _ hmem]; simp)]
      exact ih ws (i + 1) (res ++ [ws.get ⟨i, hlen⟩]) h
    · simp only [dif_neg hlen]

theorem mergeRec_length_le (W : List Word) :
    (mergeRec W).length ≤ W.length := by
  induction W using mergeRec.induct with
  | case1 => simp [mergeRec]
  | case2 w h => rw [mergeRec_space_nil w h]; simp
  | case3 w h next rest2 ih =>
    rw [mergeRec_space_cons w next rest2 h]
    simp only [List.length_cons] at ih ⊢
    omega
  | case4 w rest h ih =>
    rw [mergeRec_cons_not_space w rest (by simpa using h)]
    simp only [List.length_cons]
    omega

theorem mergeRec_no_space (W : List Word) :
    (mergeRec W).all (fun w => !isSpaceOnly w.attrs.value) = true := by
  induction W using mergeRec.induct with
  | case1 => simp [mergeRec]
  | case2 w h => rw [mergeRec_space_nil w h]; simp
  | case3 w h next rest2 ih => rw [mergeRec_space_cons w next rest2 h]; exact ih
  | case4 w rest h ih =>
    have h' : isSpaceOnly w.attrs.value = false := by simpa using h
    rw [mergeRec_cons_not_space w rest h']
    simp [List.all_cons, h', ih]

theorem mergeRec_no_space_id (W : List Word)
    (h : ∀ w ∈ W, isSpaceOnly w.attrs.value = false) : mergeRec W = W := by
  induction W with
  | nil => simp [mergeRec]
  | cons w rest ih =>
    rw [mergeRec_cons_not_space w rest (h w (by simp))]
    rw [ih (fun x hx => h x (by simp [hx]))]

theorem mergeRec_idem (W : List Word) :
    mergeRec (mergeRec W) = mergeRec W := by
  apply mergeRec_no_space_id
  intro w hw
  have := mergeRec_no_space W
  rw [List.all_eq_true] at this
  simpa using this w hw

theorem sumDur_takeWhile_append (p : Word → Bool) (l : List Word) (w : Word) :
    sumDur ((l ++ [w]).takeWhile p) =
      sumDur (l.takeWhile p) +
        (if (l.all p && p w) = true then w.attrs.duration else 0) := by
  induction l with
  | nil =>
    cases hpw : p w <;> simp [List.takeWhile, hpw, sumDur]
  | cons c l ih =>
    by_cases hc : p c = true
    · simp only [List.cons_append, List.takeWhile_cons, hc, if_true,
        sumDur_cons, ih, List.all_cons, Bool.true_and]
      ring
    · simp only [Bool.not_eq_true] at hc
      simp [List.takeWhile_cons, hc, sumDur]

theorem trailingDur_cons (w : Word) (rest : List Word) :
    trailingDur (w :: rest) = trailingDur rest +
      (if (isSpaceOnly w.attrs.value &&
            rest.all (fun x => isSpaceOnly x.attrs.value)) = true
        then w.attrs.duration else 0) := by
  unfold trailingDur
  rw [List.reverse_cons, sumDur_takeWhile_append, List.all_reverse,
    Bool.and_comm]

/-- Core duration accounting: the merged list's total duration is the
input's total duration minus the duration of the maximal trailing run of
whitespace-only words. -/
theorem sumDur_mergeRec (W : List Word) :
    sumDur (mergeRec W) = sumDur W - trailingDur W := by
  induction W using mergeRec.induct with
  | case1 => simp [mergeRec, trailingDur, sumDur]
  | case2 w h =>
    rw [mergeRec_space_nil w h, trailingDur_cons]
    simp [h, trailingDur, sumDur]
  | case3 w h next rest2 ih =>
    rw [mergeRec_space_cons w next rest2 h, ih]
    have hm : isSpaceOnly (mergedWord w next).attrs.value
        = isSpaceOnly next.attrs.value := by
      simp [mergedWord, isSpaceOnly_append, h]
    rw [trailingDur_cons, trailingDur_cons, trailingDur_cons]
    simp only [sumDur_cons, hm, List.all_cons, h, Bool.true_and]
    have hd : (mergedWord w next).attrs.duration
        = next.attrs.duration + w.attrs.duration := rfl
    rw [hd]
    by_cases hc : (isSpaceOnly next.attrs.value &&
        rest2.all fun x => isSpaceOnly x.attrs.value) = true
    · simp only [hc, if_true]; ring
    · simp only [Bool.not_eq_true] at hc
      simp only [hc, Bool.false_eq_true, if_false]; ring
  | case4 w rest h ih =>
    have h' : isSpaceOnly w.attrs.value = false := by simpa using h
    rw [mergeRec_cons_not_space w rest h', sumDur_cons, sumDur_cons, ih,
      trailingDur_cons, h']
    simp only [Bool.false_and, Bool.false_eq_true, if_false]
    ring

/-- A concrete transcription word for counterexamples and witnesses. -/
def exWord (v : String) (s d : ℚ) : Word :=
  { type := "word"
    attrs :=
      { value := v
        startInSeconds := s
        duration := d
        videoSource := "video-example-recording.mp3"
        audioSource := "video-example-recording.mp3"
        audioStartInSeconds := s } }

/-! ### Lemmas about `jsSlice` -/

theorem jsSlice_eq (xs : List Word) (a b : Nat) :
    jsSlice xs a b = (xs.drop a).take (b - a) :=
  List.drop_take b a xs

theorem jsSlice_append (xs : List Word) (a b c : Nat) (hab : a ≤ b)
    (hbc : b ≤ c) : jsSlice xs a b ++ jsSlice xs b c = jsSlice xs a c := by
  rw [jsSlice_eq, jsSlice_eq, jsSlice_eq]
  have hc : c - a = (b - a) + (c - b) := by omega
  rw [hc, List.take_add]
  congr 1
  rw [List.drop_drop, show a + (b - a) = b from by omega]

theorem jsSlice_length (xs : List Word) (a b : Nat) (hb : b ≤ xs.length)
    (hab : a ≤ b) : (jsSlice xs a b).length = b - a := by
  rw [jsSlice_eq]
  simp only [List.length_take, List.length_drop]
  omega

theorem jsSlice_getElem (xs : List Word) (a b j : Nat) (hj : j < b - a) :
    (jsSlice xs a b)[j]? = xs[a + j]? := by
  rw [jsSlice_eq, List.getElem?_take, if_pos hj, List.getElem?_drop]

/-! ### Claim theorems: the space-merge normalizer -/

/-- C2, counterexample: `mergeSpacesWithFollowingWords` is not free of
in-place modification.  On the input `[" ", "hi"]` (a whitespace-only word
followed by a normal word) the assignment `words[i + 1] = …` replaces the
second element of the caller's array, so the array after the call differs
from the array before it. -/
theorem mergeSpaces_mutates_input_array :
    mergeFinalArray [exWord " " 0 1, exWord "hi" 1 2] ≠
      [exWord " " 0 1, exWord "hi" 1 2] := by
  decide

/-- C2 (amended): the normalizer is total and deterministic — it returns a
result on every input and maps the empty sequence to the empty sequence —
and when no word of the input is whitespace-only the input array is left
completely unchanged; the in-place write happens exactly when a
whitespace-only word precedes another word. -/
theorem mergeSpaces_pure_when_no_space_words (W : List Word)
    (h : ∀ w ∈ W, isSpaceOnly w.attrs.value = false) :
    mergeSpacesWithFollowingWords [] = [] ∧ mergeFinalArray W = W := by
  exact ⟨rfl, mergeLoop_fst_no_space _ _ _ _ h⟩

theorem mergeSpaces_pure_when_no_space_words_witness :
    (∀ w ∈ [exWord "hi" 0 1], isSpaceOnly w.attrs.value = false) ∧
    (mergeSpacesWithFollowingWords [] = [] ∧
      mergeFinalArray [exWord "hi" 0 1] = [exWord "hi" 0 1]) :=
  ⟨by decide, mergeSpaces_pure_when_no_space_words _ (by decide)⟩

/-- C3: for every word sequence `W`, the total duration of
`mergeSpacesWithFollowingWords W` equals the total duration of `W` minus
the duration of the trailing whitespace-only run (the dropped trailing
silence); in particular, when the last word of `W` is not whitespace-only
the duration sum is preserved exactly. -/
theorem mergeSpaces_duration_sum (W : List Word) :
    sumDur (mergeSpacesWithFollowingWords W) = sumDur W - trailingDur W ∧
    (∀ w, W.getLast? = some w → isSpaceOnly w.attrs.value = false →
      sumDur (mergeSpacesWithFollowingWords W) = sumDur W) := by
  rw [mergeSpaces_eq_mergeRec]
  refine ⟨sumDur_mergeRec W, ?_⟩
  intro w hlast hw
  rw [sumDur_mergeRec W]
  have htd : trailingDur W = 0 := by
    unfold trailingDur
    have hh : W.reverse.head? = some w := by
      rw [List.head?_reverse]
      exact hlast
    cases hrev : W.reverse with
    | nil => rw [hrev] at hh; simp at hh
    | cons a t =>
      rw [hrev] at hh
      simp only [List.head?_cons, Option.some_inj] at hh
      subst hh
      rw [List.takeWhile_cons, hw]
      simp [sumDur]
  rw [htd]
  ring

theorem mergeSpaces_duration_sum_witness :
    ([exWord " " 0 1, exWord "hi" 1 2].getLast? = some (exWord "hi" 1 2)) ∧
    isSpaceOnly (exWord "hi" 1 2).attrs.value = false ∧
    sumDur (mergeSpacesWithFollowingWords [exWord " " 0 1, exWord "hi" 1 2]) =
      sumDur [exWord " " 0 1, exWord "hi" 1 2] :=
  ⟨by decide, by decide,
    (mergeSpaces_duration_sum [exWord " " 0 1, exWord "hi" 1 2]).2
      (exWord "hi" 1 2) (by decide) (by decide)⟩

/-- C6: the space-merge normalizer is idempotent — applying it twice gives
the same result as applying it once (no whitespace-only word survives the
first pass, so the second pass is the identity). -/
theorem mergeSpaces_idempotent (W : List Word) :
    mergeSpacesWithFollowingWords (mergeSpacesWithFollowingWords W) =
      mergeSpacesWithFollowingWords W := by
  rw [mergeSpaces_eq_mergeRec, mergeSpaces_eq_mergeRec, mergeRec_idem]

/-- C7: for every input, every word of the normalizer's output has
non-empty trimmed text (`isSpaceOnly` is `value.trim() === ''`), and the
output has at most as many words as the input. -/
theorem mergeSpaces_output_no_space_and_count (W : List Word) :
    (mergeSpacesWithFollowingWords W).all
      (fun w => !isSpaceOnly w.attrs.value) = true ∧
    (mergeSpacesWithFollowingWords W).length ≤ W.length := by
  rw [mergeSpaces_eq_mergeRec]
  exact ⟨mergeRec_no_space W, mergeRec_length_le W⟩

/-! ### Claim theorems: boundary computation -/

/-- A small concrete word list for witnesses. -/
def exW4 : List Word :=
  [exWord "a" 0 1, exWord "b " 1 1, exWord "c" 2 1, exWord "d" 3 1]

/-- C5: whenever `startIndex + l + m + r ≤ words.length`, the three slices
computed by `evaluateInfill` have lengths `l`, `m`, `r`, their
concatenation is exactly the contiguous window
`words[startIndex, startIndex + l + m + r)` (element `j` of the window is
`words[startIndex + j]`, so the slices partition the window with no gaps
or overlaps), and the middle text is the fold of `++` over the middle
words' `value` fields in order, with no added joiner. -/
theorem computeBoundaries_partition (words : List Word) (s l m r : Nat)
    (h : s + l + m + r ≤ words.length)
    (left middle right : List Word)
    (heq : computeBoundaries words s l m r = (left, middle, right)) :
    left.length = l ∧ middle.length = m ∧ right.length = r ∧
    left ++ middle ++ right = (words.drop s).take (l + m + r) ∧
    (∀ j, j < l + m + r → (left ++ middle ++ right)[j]? = words[s + j]?) ∧
    middleTextOf words s l m =
      (middle.map (fun w => w.attrs.value)).foldl (fun acc v => acc ++ v) "" := by
  simp only [computeBoundaries, Prod.mk.injEq] at heq
  obtain ⟨h1, h2, h3⟩ := heq
  subst h1
  subst h2
  subst h3
  have happ : jsSlice words s (s + l) ++ jsSlice words (s + l) (s + l + m) ++
      jsSlice words (s + l + m) (s + l + m + r) =
      jsSlice words s (s + l + m + r) := by
    rw [jsSlice_append words s (s + l) (s + l + m) (by omega) (by omega),
      jsSlice_append words s (s + l + m) (s + l + m + r) (by omega) (by omega)]
  refine ⟨?_, ?_, ?_, ?_, ?_, ?_⟩
  · rw [jsSlice_length _ _ _ (by omega) (by omega)]
    omega
  · rw [jsSlice_length _ _ _ (by omega) (by omega)]
    omega
  · rw [jsSlice_length _ _ _ (by omega) (by omega)]
    omega
  · rw [happ, jsSlice_eq]
    congr 1
    omega
  · intro j hj
    rw [happ, jsSlice_getElem _ _ _ _ (by omega)]
  · rfl

theorem computeBoundaries_partition_witness :
    (1 + 1 + 1 + 1 ≤ exW4.length) ∧
    ([exWord "b " 1 1] ++ [exWord "c" 2 1] ++ [exWord "d" 3 1] =
      (exW4.drop 1).take 3) ∧
    middleTextOf exW4 1 1 1 =
      ([exWord "c" 2 1].map (fun w => w.attrs.value)).foldl
        (fun acc v => acc ++ v) "" := by
  have H := computeBoundaries_partition exW4 1 1 1 1 (by decide)
    [exWord "b " 1 1] [exWord "c" 2 1] [exWord "d" 3 1] (by decide)
  exact ⟨by decide, H.2.2.2.1, H.2.2.2.2.2⟩

/-! ### Claim theorems: `sanitizeFolderName` -/

/-- Characters allowed in a sanitized folder name: lowercase ASCII
letters, digits, and the hyphen. -/
def isAllowedOut (c : Char) : Bool :=
  (97 ≤ c.toNat && c.toNat ≤ 122) || (48 ≤ c.toNat && c.toNat ≤ 57) ||
    c.toNat == 45

theorem isKept_not_ws_allowed (c : Char) (hk : isKept c = true)
    (hw : isWs c = false) : isAllowedOut c = true := by
  simp only [isKept, isWs, isAllowedOut, Bool.or_eq_true, Bool.and_eq_true,
    decide_eq_true_eq, beq_iff_eq] at hk ⊢
  simp only [isWs, Bool.or_eq_false_iff, beq_eq_false_iff_ne, ne_eq] at hw
  omega

theorem collapseWs_allowed (l : List Char) (flag : Bool)
    (h : ∀ c ∈ l, isKept c = true) :
    ∀ c ∈ collapseWs l flag, isAllowedOut c = true := by
  induction l generalizing flag with
  | nil => intro c hc; simp [collapseWs] at hc
  | cons a rest ih =>
    intro c hc
    by_cases ha : isWs a = true
    · rw [collapseWs, if_pos ha] at hc
      cases flag with
      | true =>
        simp only [if_true] at hc
        exact ih true (fun x hx => h x (by simp [hx])) c hc
      | false =>
        simp only [Bool.false_eq_true, if_false, List.mem_cons] at hc
        rcases hc with hc | hc
        · subst hc; decide
        · exact ih true (fun x hx => h x (by simp [hx])) c hc
    · rw [collapseWs, if_neg ha] at hc
      rcases List.mem_cons.mp hc with hc | hc
      · subst hc
        exact isKept_not_ws_allowed c (h c (by simp))
          (by simpa using ha)
      · exact ih false (fun x hx => h x (by simp [hx])) c hc

/-- C10 (amended): for every input string, `sanitizeFolderName` returns a
string of length at most 50 whose characters are all lowercase ASCII
letters, digits, or hyphens. -/
theorem sanitizeFolderName_bounded_charset (s : String) :
    (sanitizeFolderName s).length ≤ 50 ∧
    (sanitizeFolderName s).data.all isAllowedOut = true := by
  constructor
  · show (sanitizeFolderName s).data.length ≤ 50
    exact List.length_take_le _ _
  · rw [List.all_eq_true]
    intro c hc
    have hc' : c ∈ collapseWs (((jsTrim s.data).map jsToLower).filter isKept)
        false := List.mem_of_mem_take hc
    exact collapseWs_allowed _ false
      (fun x hx => (List.mem_filter.mp hx).2) c hc'

/-- C10, counterexample to the "consequently" clause: the strings `"a."`
and `"a ."` differ only in a whitespace run (their non-whitespace
characters agree), yet they map to distinct artifact prefixes `"a"` and
`"a-"` — trailing punctuation prevents `trim()` from removing the
whitespace that the later `\s+ → '-'` pass then turns into a hyphen. -/
theorem sanitizeFolderName_ws_run_changes_prefix :
    "a.".data.filter (fun c => !isWs c) =
      "a .".data.filter (fun c => !isWs c) ∧
    sanitizeFolderName "a." = "a" ∧
    sanitizeFolderName "a ." = "a-" ∧
    sanitizeFolderName "a." ≠ sanitizeFolderName "a ." := by
  decide

/-! ### Helper lemmas about the effect traces -/

theorem evaluateInfillRun_skip (words : List Word) (s l m r : Nat)
    (existing : List String) (hmem : finalNameOf words s l m ∈ existing) :
    evaluateInfillRun words s l m r existing = ([], none) := by
  simp only [evaluateInfillRun]
  rw [if_pos hmem]

theorem evaluateInfillRun_full (words : List Word) (s l m r : Nat)
    (existing : List String) (hmem : finalNameOf words s l m ∉ existing)
    (hl : jsSlice words s (s + l) ≠ [])
    (hr : jsSlice words (s + l + m) (s + l + m + r) ≠ []) :
    evaluateInfillRun words s l m r existing =
      ([Effect.mkdirOut, Effect.readAudio,
        Effect.extractSegment, Effect.extractSegment,
        Effect.writeFile (prefixNameOf words s l m ++ "-left.wav"),
        Effect.writeFile (prefixNameOf words s l m ++ "-right.wav"),
        Effect.infillCall (middleTextOf words s l m),
        Effect.writeFile (prefixNameOf words s l m ++ "-generated.wav"),
        Effect.joinFiles (finalNameOf words s l m)], none) := by
  simp only [evaluateInfillRun]
  rw [if_neg hmem, if_neg (by simpa using hl), if_neg (by simpa using hr)]

theorem extractTrace_no_synthesis (words : List Word) (dirExists : Bool) :
    Effect.cloneVoice ∉ extractWordsToFolderTrace words dirExists ∧
    (∀ t, Effect.infillCall t ∉ extractWordsToFolderTrace words dirExists) := by
  cases dirExists with
  | true => simp [extractWordsToFolderTrace]
  | false =>
    unfold extractWordsToFolderTrace
    refine ⟨?_, fun t => ?_⟩ <;>
      simp [List.mem_flatten, List.mem_map]

/-! ### Claim theorems: the batch driver -/

/-- C4: `evaluateInfill` is idempotent-by-existence.  When the final
artifact's basename is already present, the run performs no effect at all
(no extraction call, no synthesis call, no file write) and returns
immediately without error; when it is absent (and the left/right slices
are non-empty, so the `leftWords[0]`/`rightWords[0]` accesses succeed),
the run performs the complete effect sequence: output-directory creation,
source read, two ffmpeg extractions, the left/right writes, the infill
call, the generated write, and the final concat. -/
theorem evaluateInfill_idempotent_by_existence (words : List Word)
    (s l m r : Nat) (existing : List String) :
    (finalNameOf words s l m ∈ existing →
      evaluateInfillRun words s l m r existing = ([], none)) ∧
    (finalNameOf words s l m ∉ existing →
      jsSlice words s (s + l) ≠ [] →
      jsSlice words (s + l + m) (s + l + m + r) ≠ [] →
      evaluateInfillRun words s l m r existing =
        ([Effect.mkdirOut, Effect.readAudio,
          Effect.extractSegment, Effect.extractSegment,
          Effect.writeFile (prefixNameOf words s l m ++ "-left.wav"),
          Effect.writeFile (prefixNameOf words s l m ++ "-right.wav"),
          Effect.infillCall (middleTextOf words s l m),
          Effect.writeFile (prefixNameOf words s l m ++ "-generated.wav"),
          Effect.joinFiles (finalNameOf words s l m)], none)) :=
  ⟨evaluateInfillRun_skip words s l m r existing,
   evaluateInfillRun_full words s l m r existing⟩

theorem evaluateInfill_idempotent_by_existence_witness :
    (finalNameOf exW4 1 1 1 ∈ [finalNameOf exW4 1 1 1]) ∧
    evaluateInfillRun exW4 1 1 1 1 [finalNameOf exW4 1 1 1] = ([], none) ∧
    (finalNameOf exW4 1 1 1 ∉ ([] : List String)) ∧
    Effect.infillCall (middleTextOf exW4 1 1 1) ∈
      (evaluateInfillRun exW4 1 1 1 1 []).1 := by
  refine ⟨by decide, ?_, by decide, ?_⟩
  · exact (evaluateInfill_idempotent_by_existence exW4 1 1 1 1
      [finalNameOf exW4 1 1 1]).1 (by decide)
  · rw [(evaluateInfill_idempotent_by_existence exW4 1 1 1 1 []).2
      (by decide) (by decide) (by decide)]
    simp

/-- C8, counterexample: a trial with `middleCount == 0` is NOT rejected.
On a concrete four-word list with `l = 2, m = 0, r = 2` the boundary
computation succeeds with an empty middle segment and empty middle text,
no error is raised, and the run proceeds all the way to an infill call
whose transcript is the empty string. -/
theorem middleCount_zero_not_rejected :
    computeBoundaries exW4 0 2 0 2 =
      ([exWord "a" 0 1, exWord "b " 1 1], [],
        [exWord "c" 2 1, exWord "d" 3 1]) ∧
    middleTextOf exW4 0 2 0 = "" ∧
    (evaluateInfillRun exW4 0 2 0 2 []).2 = none ∧
    Effect.infillCall "" ∈ (evaluateInfillRun exW4 0 2 0 2 []).1 := by
  decide

/-- C8 (amended): a trial configuration with `middleCount == 0` is not
rejected anywhere: whenever the artifact is absent and the left and right
slices are non-empty, the boundary computation silently yields an empty
middle segment with empty text and the trial runs to completion without
error, synthesizing an empty transcript. -/
theorem middleCount_zero_silently_empty (words : List Word) (s l r : Nat)
    (existing : List String)
    (hnot : finalNameOf words s l 0 ∉ existing)
    (hl : jsSlice words s (s + l) ≠ [])
    (hr : jsSlice words (s + l + 0) (s + l + 0 + r) ≠ []) :
    jsSlice words (s + l) (s + l + 0) = [] ∧
    middleTextOf words s l 0 = "" ∧
    (evaluateInfillRun words s l 0 r existing).2 = none ∧
    Effect.infillCall "" ∈ (evaluateInfillRun words s l 0 r existing).1 := by
  have hmid : jsSlice words (s + l) (s + l + 0) = [] := by
    rw [jsSlice_eq]
    simp
  have hmtx : middleTextOf words s l 0 = "" := by
    rw [middleTextOf, hmid]
    rfl
  have hfull := evaluateInfillRun_full words s l 0 r existing hnot hl hr
  refine ⟨hmid, hmtx, ?_, ?_⟩
  · rw [hfull]
  · rw [hfull, hmtx]
    simp

theorem middleCount_zero_silently_empty_witness :
    (finalNameOf exW4 0 2 0 ∉ ([] : List String)) ∧
    jsSlice exW4 0 (0 + 2) ≠ [] ∧
    jsSlice exW4 (0 + 2 + 0) (0 + 2 + 0 + 2) ≠ [] ∧
    (middleTextOf exW4 0 2 0 = "" ∧
      Effect.infillCall "" ∈ (evaluateInfillRun exW4 0 2 0 2 []).1) := by
  have H := middleCount_zero_silently_empty exW4 0 2 2 []
    (by decide) (by decide) (by decide)
  exact ⟨by decide, by decide, by decide, H.2.1, H.2.2.2⟩

/-- C1, counterexample: with 14 words (one short of the required 15) and
no pre-existing words folder, the run does fail with the
insufficient-words error, but only AFTER the word-extraction pass has
already performed per-word ffmpeg extraction calls — the failure does not
precede every audio-extraction call. -/
theorem insufficient_words_extraction_before_error :
    (mainRun (List.replicate 14 (exWord "hi" 0 1)) false []).2 =
      some "Not enough words. Need 15, got 14" ∧
    Effect.extractSegment ∈
      (mainRun (List.replicate 14 (exWord "hi" 0 1)) false []).1 := by
  decide

/-- C1 (amended): when `words.length < 15`, the run fails with the
insufficient-words error and performs no synthesis call (neither the
voice clone nor any infill call); it performs no call at all when the
words folder already exists, but when that folder is absent the
word-extraction pass has already run before the failure. -/
theorem insufficient_words_error (words : List Word) (dirExists : Bool)
    (existing : List String) (h : words.length < 15) :
    (mainRun words dirExists existing).2 =
      some ("Not enough words. Need 15, got " ++ toString words.length) ∧
    Effect.cloneVoice ∉ (mainRun words dirExists existing).1 ∧
    (∀ t, Effect.infillCall t ∉ (mainRun words dirExists existing).1) ∧
    (dirExists = true → (mainRun words dirExists existing).1 = []) := by
  have htrace : mainRun words dirExists existing =
      (extractWordsToFolderTrace words dirExists,
        some ("Not enough words. Need 15, got " ++ toString words.length)) := by
    simp only [mainRun]
    rw [if_pos h]
  rw [htrace]
  refine ⟨rfl, (extractTrace_no_synthesis words dirExists).1,
    (extractTrace_no_synthesis words dirExists).2, ?_⟩
  intro hd
  subst hd
  simp [extractWordsToFolderTrace]

theorem insufficient_words_error_witness :
    ((List.replicate 14 (exWord "hi" 0 1)).length < 15) ∧
    ((mainRun (List.replicate 14 (exWord "hi" 0 1)) true []).1 = []) ∧
    ((mainRun (List.replicate 14 (exWord "hi" 0 1)) true []).2 =
      some ("Not enough words. Need 15, got " ++
        toString (List.replicate 14 (exWord "hi" 0 1)).length)) := by
  have H := insufficient_words_error (List.replicate 14 (exWord "hi" 0 1))
    true [] (by decide)
  exact ⟨by decide, H.2.2.2 rfl, H.1⟩

/-- The spacing of the trial start indexes, one step per trial. -/
theorem trialIndexes_eq (len step tn : Nat) : ∀ (k i : Nat),
    (∀ j, j < k → (i + j) * step + tn ≤ len) →
    trialIndexes len step tn i k =
      (List.range k).map (fun j => (i + j) * step) := by
  intro k
  induction k with
  | zero => intro i h; simp [trialIndexes]
  | succ k ih =>
    intro i h
    rw [trialIndexes, if_neg (by have h0 := h 0 (by omega); simp at h0; omega)]
    rw [ih (i + 1) (fun j hj => by
      have hj1 := h (j + 1) (by omega)
      have harith : i + 1 + j = i + (j + 1) := by omega
      rw [harith]
      exact hj1)]
    rw [List.range_succ_eq_map, List.map_cons, List.map_map]
    congr 1
    all_goals simp
    intro a ha
    omega

/-- C9: for `totalNeeded ≤ words.length` (the driver aborts earlier
otherwise) and `step = ⌊(len − totalNeeded) / N⌋`, the evaluation loop
executes exactly `N` trials with start indexes `i · step` for
`i = 0..N−1`, and every executed trial satisfies
`startIndex + totalNeeded ≤ words.length` (the loop's skip-and-break
guard never fires). -/
theorem trials_evenly_spaced (len tn N : Nat) (h : tn ≤ len) :
    trialIndexes len ((len - tn) / N) tn 0 N =
      (List.range N).map (fun i => i * ((len - tn) / N)) ∧
    (∀ x ∈ trialIndexes len ((len - tn) / N) tn 0 N, x + tn ≤ len) := by
  have hbound : ∀ j, j < N → j * ((len - tn) / N) + tn ≤ len := by
    intro j hj
    have hA : j * ((len - tn) / N) ≤ len - tn := by
      calc j * ((len - tn) / N) ≤ N * ((len - tn) / N) :=
            Nat.mul_le_mul_right _ (Nat.le_of_lt hj)
        _ = ((len - tn) / N) * N := Nat.mul_comm _ _
        _ ≤ len - tn := Nat.div_mul_le_self _ _
    omega
  have heq := trialIndexes_eq len ((len - tn) / N) tn N 0
    (fun j hj => by simpa using hbound j hj)
  constructor
  · rw [heq]
    apply List.map_congr_left
    intro j hj
    simp
  · intro x hx
    rw [heq] at hx
    rcases List.mem_map.mp hx with ⟨j, hj, rfl⟩
    have hjN : j < N := List.mem_range.mp hj
    simpa using hbound j hjN

theorem trials_evenly_spaced_witness :
    15 ≤ 50 ∧
    trialIndexes 50 ((50 - 15) / 10) 15 0 10 =
      (List.range 10).map (fun i => i * ((50 - 15) / 10)) ∧
    (∀ x ∈ trialIndexes 50 ((50 - 15) / 10) 15 0 10, x + 15 ≤ 50) := by
  have H := trials_evenly_spaced 50 15 10 (by decide)
  exact ⟨by decide, H.1, H.2⟩
